import Mathlib

/-!
Verification of the markdown-to-HTML converter (`markdown2html.py`).

Python strings are embedded as `List Char`; the line-oriented core
(`convert_heading`, `convert_unordered_list`, `convert_ordered_list`,
`convert_paragraph`, `process_inline_markup`, and the block-classification
loop of `main`) is translated function by function.  Regex-based passes are
embedded as explicit left-to-right scanners with the same match semantics as
the patterns used in the source; `hashlib.md5` (an external library) is
modelled by the standard MD5 algorithm.
-/

set_option maxRecDepth 10000

/-- Python strings are modelled as lists of characters. -/
abbrev Str := List Char

/-- Turn a Lean string literal into the `List Char` embedding. -/
def str (s : String) : Str := s.data

/-- ASCII whitespace, as stripped by Python `str.strip` / `rstrip` / `split`. -/
def pyIsSpace (c : Char) : Bool :=
  c == ' ' || c == '\t' || c == '\n' || c == '\r' || c == '\x0b' || c == '\x0c'

/-- Embedding of Python `s.rstrip()` (trailing whitespace removed). -/
def pyRstrip (s : Str) : Str := (s.reverse.dropWhile pyIsSpace).reverse

/-- Embedding of Python `s.strip()` (whitespace removed on both ends). -/
def pyStrip (s : Str) : Str := pyRstrip (s.dropWhile pyIsSpace)

/-- Embedding of Python `s.lstrip(chars)`: drop every leading character
that belongs to `chars` (a character *set*, not a literal prefix). -/
def pyLstrip (chars : Str) (s : Str) : Str := s.dropWhile (fun c => chars.contains c)

/-- Embedding of Python `line.split()[0]`: the first maximal run of
non-whitespace characters (after leading whitespace).  Total: yields `[]`
where Python would raise on a whitespace-only string; `convert_heading`
only ever receives lines starting with `'#'`. -/
def pySplitHead (s : Str) : Str :=
  (s.dropWhile pyIsSpace).takeWhile (fun c => !(pyIsSpace c))

/-- Decimal rendering of a natural number, as Python string interpolation. -/
def natStr (n : Nat) : Str := Nat.toDigits 10 n

/-- Embedding of Python `sep.join(xs)`. -/
def joinSep (sep : Str) : List Str → Str
  | [] => []
  | [x] => x
  | x :: y :: rest => x ++ sep ++ joinSep sep (y :: rest)

/-! ## Inline rewriting: bold and emphasis (`re.sub`) -/

/-- After an opening double delimiter, parse the regex tail `([^d]+)dd`:
a maximal nonempty run of non-`d` characters followed by the closing double
delimiter.  Returns the captured run and the rest of the input.  The greedy
run needs no backtracking: any shorter run would leave a non-`d` character
where the pattern demands `d`. -/
def grabRun (d : Char) (s : Str) : Option (Str × Str) :=
  let cont := s.takeWhile (fun c => c != d)
  if cont = [] then none
  else
    match s.drop cont.length with
    | a :: b :: r => if a = d ∧ b = d then some (cont, r) else none
    | _ => none

/-- Fuel-driven scanner for `re.sub(r'dd([^d]+)dd', ot‹content›ct, s)`:
walk left to right, replace each leftmost match, resume after the match.
Fuel decreases by one per scan step; `s.length` fuel is always enough. -/
def goSub (d : Char) (ot ct : Str) : Nat → Str → Str
  | 0, s => s
  | _ + 1, [] => []
  | fuel + 1, x :: rest =>
    if x = d ∧ rest.head? = some d then
      match grabRun d rest.tail with
      | some (cont, r) => ot ++ cont ++ ct ++ goSub d ot ct fuel r
      | none => x :: goSub d ot ct fuel rest
    else x :: goSub d ot ct fuel rest

/-- Embedding of one `re.sub(r'dd([^d]+)dd', ...)` pass of the source. -/
def subDelim (d : Char) (ot ct : Str) (s : Str) : Str := goSub d ot ct s.length s

/-- Embedding of `re.sub(r'\*\*([^*]+)\*\*', r'<b>\1</b>', text)`. -/
def boldSub (s : Str) : Str := subDelim '*' (str "<b>") (str "</b>") s

/-- Embedding of `re.sub(r'__([^_]+)__', r'<em>\1</em>', text)`. -/
def emSub (s : Str) : Str := subDelim '_' (str "<em>") (str "</em>") s

/-! ## Inline rewriting: `[[...]]` and `((...))` (`re.findall` + `str.replace`) -/

/-- Lazy tail scan for `(.*?)cc`: the shortest prefix (newline-free, `.`
does not match a newline) followed by the doubled closing character `c`.
Returns the captured prefix and the input after the closing pair. -/
def scanC (c : Char) : Str → Option (Str × Str)
  | [] => none
  | x :: rest =>
    if x = c ∧ rest.head? = some c then some ([], rest.tail)
    else if x = '\n' then none
    else (scanC c rest).map (fun p => (x :: p.1, p.2))

/-- Fuel-driven scanner for `re.findall(r'oo(.*?)cc', s)`: collect the
captured contents of the leftmost non-overlapping lazy matches. -/
def goFind (o c : Char) : Nat → Str → List Str
  | 0, _ => []
  | _ + 1, [] => []
  | fuel + 1, x :: rest =>
    if x = o ∧ rest.head? = some o then
      match scanC c rest.tail with
      | some (cont, r) => cont :: goFind o c fuel r
      | none => goFind o c fuel rest
    else goFind o c fuel rest

/-- Embedding of `re.findall(r'oo(.*?)cc', s)` (capture list only). -/
def findDelim (o c : Char) (s : Str) : List Str := goFind o c s.length s

/-- Fuel-driven embedding of Python `s.replace(pat, repl)`: leftmost,
non-overlapping, the replacement text is not rescanned. -/
def goRepl (pat repl : Str) : Nat → Str → Str
  | 0, s => s
  | _ + 1, [] => []
  | fuel + 1, x :: rest =>
    if pat ≠ [] ∧ pat.isPrefixOf (x :: rest) then
      repl ++ goRepl pat repl fuel (List.drop (pat.length - 1) rest)
    else x :: goRepl pat repl fuel rest

/-- Embedding of Python `s.replace(pat, repl)`. -/
def replaceAll (pat repl s : Str) : Str := goRepl pat repl s.length s

/-! ## MD5 (model of `hashlib.md5(...).hexdigest()`)

`hashlib` is an external library, not part of the repository; the spec
demands "the lowercase hexadecimal MD5 digest ... encoded as raw bytes",
so the standard MD5 algorithm (RFC 1321) is embedded here directly,
together with UTF-8 encoding (Python `str.encode()`). -/

/-- UTF-8 encoding of a single code point (Python `str.encode()`). -/
def utf8Char (n : Nat) : List Nat :=
  if n < 0x80 then [n]
  else if n < 0x800 then [0xC0 + n / 64, 0x80 + n % 64]
  else if n < 0x10000 then
    [0xE0 + n / 4096, 0x80 + n / 64 % 64, 0x80 + n % 64]
  else
    [0xF0 + n / 262144, 0x80 + n / 4096 % 64, 0x80 + n / 64 % 64, 0x80 + n % 64]

/-- UTF-8 encoding of a whole string. -/
def utf8Bytes (s : Str) : List Nat :=
  s.foldr (fun ch acc => utf8Char ch.toNat ++ acc) []

/-- The 64 MD5 round constants. -/
def md5K : List Nat :=
  [0xd76aa478, 0xe8c7b756, 0x242070db, 0xc1bdceee,
   0xf57c0faf, 0x4787c62a, 0xa8304613, 0xfd469501,
   0x698098d8, 0x8b44f7af, 0xffff5bb1, 0x895cd7be,
   0x6b901122, 0xfd987193, 0xa679438e, 0x49b40821,
   0xf61e2562, 0xc040b340, 0x265e5a51, 0xe9b6c7aa,
   0xd62f105d, 0x02441453, 0xd8a1e681, 0xe7d3fbc8,
   0x21e1cde6, 0xc33707d6, 0xf4d50d87, 0x455a14ed,
   0xa9e3e905, 0xfcefa3f8, 0x676f02d9, 0x8d2a4c8a,
   0xfffa3942, 0x8771f681, 0x6d9d6122, 0xfde5380c,
   0xa4beea44, 0x4bdecfa9, 0xf6bb4b60, 0xbebfbc70,
   0x289b7ec6, 0xeaa127fa, 0xd4ef3085, 0x04881d05,
   0xd9d4d039, 0xe6db99e5, 0x1fa27cf8, 0xc4ac5665,
   0xf4292244, 0x432aff97, 0xab9423a7, 0xfc93a039,
   0x655b59c3, 0x8f0ccc92, 0xffeff47d, 0x85845dd1,
   0x6fa87e4f, 0xfe2ce6e0, 0xa3014314, 0x4e0811a1,
   0xf7537e82, 0xbd3af235, 0x2ad7d2bb, 0xeb86d391]

/-- The 64 MD5 per-round left-rotation amounts. -/
def md5S : List Nat :=
  [7, 12, 17, 22, 7, 12, 17, 22, 7, 12, 17, 22, 7, 12, 17, 22,
   5, 9, 14, 20, 5, 9, 14, 20, 5, 9, 14, 20, 5, 9, 14, 20,
   4, 11, 16, 23, 4, 11, 16, 23, 4, 11, 16, 23, 4, 11, 16, 23,
   6, 10, 15, 21, 6, 10, 15, 21, 6, 10, 15, 21, 6, 10, 15, 21]

/-- 32-bit left rotation on naturals below `2 ^ 32`. -/
def rotl32 (x n : Nat) : Nat := (x * 2 ^ n + x / 2 ^ (32 - n)) % 4294967296

/-- One MD5 round on the state `(a, b, c, d)`. -/
def md5step (M : List Nat) (st : Nat × Nat × Nat × Nat) (i : Nat) :
    Nat × Nat × Nat × Nat :=
  let a := st.1
  let b := st.2.1
  let c := st.2.2.1
  let d := st.2.2.2
  let f :=
    if i < 16 then (b &&& c) ||| ((0xFFFFFFFF ^^^ b) &&& d)
    else if i < 32 then (d &&& b) ||| ((0xFFFFFFFF ^^^ d) &&& c)
    else if i < 48 then b ^^^ c ^^^ d
    else c ^^^ (b ||| (0xFFFFFFFF ^^^ d))
  let g :=
    if i < 16 then i
    else if i < 32 then (5 * i + 1) % 16
    else if i < 48 then (3 * i + 5) % 16
    else 7 * i % 16
  let v := (a + f + md5K.getD i 0 + M.getD g 0) % 4294967296
  (d, (b + rotl32 v (md5S.getD i 0)) % 4294967296, b, c)

/-- Compress one 64-byte chunk into the MD5 state. -/
def md5compress (st : Nat × Nat × Nat × Nat) (chunk : List Nat) :
    Nat × Nat × Nat × Nat :=
  let M := (List.range 16).map (fun j =>
    chunk.getD (4 * j) 0 + chunk.getD (4 * j + 1) 0 * 256 +
    chunk.getD (4 * j + 2) 0 * 65536 + chunk.getD (4 * j + 3) 0 * 16777216)
  let f := (List.range 64).foldl (md5step M) st
  ((st.1 + f.1) % 4294967296, (st.2.1 + f.2.1) % 4294967296,
   (st.2.2.1 + f.2.2.1) % 4294967296, (st.2.2.2 + f.2.2.2) % 4294967296)

/-- MD5 padding: `0x80`, zeros to 56 mod 64, 8-byte little-endian bit length. -/
def md5pad (msg : List Nat) : List Nat :=
  msg ++ 0x80 :: List.replicate ((120 - (msg.length + 1) % 64) % 64) 0 ++
    (List.range 8).map (fun j => msg.length * 8 / 2 ^ (8 * j) % 256)

/-- The 16-byte MD5 digest of a byte sequence. -/
def md5digest (msg : List Nat) : List Nat :=
  let padded := md5pad msg
  let f := (List.range (padded.length / 64)).foldl
    (fun st i => md5compress st ((padded.drop (64 * i)).take 64))
    (0x67452301, 0xefcdab89, 0x98badcfe, 0x10325476)
  [f.1, f.2.1, f.2.2.1, f.2.2.2].foldr
    (fun w acc =>
      w % 256 :: w / 256 % 256 :: w / 65536 % 256 :: w / 16777216 % 256 :: acc)
    []

/-- A lowercase hexadecimal digit. -/
def hexDigit (n : Nat) : Char := (str "0123456789abcdef").getD n '0'

/-- Lowercase hexadecimal rendering of a byte sequence. -/
def toHexLower (bytes : List Nat) : Str :=
  bytes.foldr (fun b acc => hexDigit (b / 16) :: hexDigit (b % 16) :: acc) []

/-- Embedding of `hashlib.md5(content.encode()).hexdigest()`. -/
def md5hex (content : Str) : Str := toHexLower (md5digest (utf8Bytes content))

/-! ## The four-pass inline rewriter -/

/-- The MD5 substitution pass of `process_inline_markup`: find all `[[...]]`
captures, then replace each literal `[[capture]]` by its digest, in order. -/
def md5Pass (text : Str) : Str :=
  (findDelim '[' ']' text).foldl
    (fun acc cont => replaceAll (str "[[" ++ cont ++ str "]]") (md5hex cont) acc)
    text

/-- Embedding of `re.sub(r'[cC]', '', match)`. -/
def removeC (s : Str) : Str := s.filter (fun ch => ch != 'c' && ch != 'C')

/-- The `((...))` strip pass of `process_inline_markup`: find all captures,
then replace each literal `((capture))` by the capture minus `c`/`C`. -/
def parenPass (text : Str) : Str :=
  (findDelim '(' ')' text).foldl
    (fun acc cont => replaceAll (str "((" ++ cont ++ str "))") (removeC cont) acc)
    text

/-- Embedding of `process_inline_markup`: bold, emphasis, MD5, strip-`c`,
in this order. -/
def process_inline_markup (text : Str) : Str :=
  parenPass (md5Pass (emSub (boldSub text)))

/-! ## Block renderers -/

/-- Embedding of `convert_heading`. -/
def convert_heading (line : Str) : Str :=
  let level := (pySplitHead line).length
  let text := pyStrip (line.dropWhile (fun c => c == '#'))
  str "<h" ++ natStr level ++ str ">" ++ text ++
    str "</h" ++ natStr level ++ str ">"

/-- Embedding of `convert_unordered_list`. -/
def convert_unordered_list (lines : List Str) : Str :=
  let items := lines.map (fun l => pyStrip (pyLstrip (str "- ") l))
  let htmlItems := items.map (fun it =>
    str "<li>" ++ process_inline_markup it ++ str "</li>")
  str "<ul>\n" ++ joinSep (str "\n") htmlItems ++ str "\n</ul>"

/-- Embedding of `convert_ordered_list`. -/
def convert_ordered_list (lines : List Str) : Str :=
  let items := lines.map (fun l => pyStrip (pyLstrip (str "* ") l))
  let htmlItems := items.map (fun it =>
    str "<li>" ++ process_inline_markup it ++ str "</li>")
  str "<ol>\n" ++ joinSep (str "\n") htmlItems ++ str "\n</ol>"

/-- The processed line list built by the loop of `convert_paragraph`:
line `i` is inline-rewritten, with `<br/>` appended when `i` is not the
last index and the raw line `i + 1` is non-empty. -/
def paragraphBody (lines : List Str) : List Str :=
  (List.range lines.length).map (fun i =>
    let line := process_inline_markup (lines.getD i [])
    if i < lines.length - 1 ∧ lines.getD (i + 1) [] ≠ [] then
      line ++ str "<br/>"
    else line)

/-- Embedding of `convert_paragraph`. -/
def convert_paragraph (lines : List Str) : Str :=
  str "<p>\n" ++ joinSep (str "\n") (paragraphBody lines) ++ str "\n</p>"

/-! ## The block-classification loop of `main` -/

/-- The three accumulating values of `current_type` (`'ul'`, `'ol'`, `'p'`). -/
inductive BType where
  | ul : BType
  | ol : BType
  | par : BType
deriving DecidableEq, Repr

/-- The loop state of `main`: `html_lines`, `current_block`, `current_type`
(`none` embeds Python `None`). -/
structure ScanState where
  htmlLines : List Str
  currentBlock : List Str
  currentType : Option BType
deriving DecidableEq, Repr

/-- The flush dispatch shared by every flush site of `main`: render the
accumulated block according to `current_type`; `None` renders nothing. -/
def emit (t : Option BType) (b : List Str) : List Str :=
  match t with
  | some BType.ul => [convert_unordered_list b]
  | some BType.ol => [convert_ordered_list b]
  | some BType.par => [convert_paragraph b]
  | none => []

/-- One iteration of the `for line in lines` loop of `main`. -/
def processLine (st : ScanState) (raw : Str) : ScanState :=
  let line := pyRstrip raw
  if line.head? = some '#' then
    let h := if st.currentBlock ≠ [] then
        st.htmlLines ++ emit st.currentType st.currentBlock
      else st.htmlLines
    ⟨h ++ [convert_heading line], [], st.currentType⟩
  else if (str "- ").isPrefixOf line then
    if st.currentType ≠ some BType.ul ∧ st.currentBlock ≠ [] then
      ⟨st.htmlLines ++ emit st.currentType st.currentBlock, [line], some BType.ul⟩
    else
      ⟨st.htmlLines, st.currentBlock ++ [line], some BType.ul⟩
  else if (str "* ").isPrefixOf line then
    if st.currentType ≠ some BType.ol ∧ st.currentBlock ≠ [] then
      ⟨st.htmlLines ++ emit st.currentType st.currentBlock, [line], some BType.ol⟩
    else
      ⟨st.htmlLines, st.currentBlock ++ [line], some BType.ol⟩
  else if line ≠ [] then
    if st.currentType ≠ some BType.par ∧ st.currentBlock ≠ [] then
      ⟨st.htmlLines ++ emit st.currentType st.currentBlock, [line], some BType.par⟩
    else
      ⟨st.htmlLines, st.currentBlock ++ [line], some BType.par⟩
  else if st.currentBlock ≠ [] then
    ⟨st.htmlLines ++ emit st.currentType st.currentBlock, [], none⟩
  else st

/-- Folding the whole document through the loop of `main`. -/
def scanDoc (lines : List Str) : ScanState :=
  lines.foldl processLine ⟨[], [], none⟩

/-- The final `html_lines` list of `main`, after the trailing flush. -/
def blocksOf (lines : List Str) : List Str :=
  let st := scanDoc lines
  if st.currentBlock ≠ [] then st.htmlLines ++ emit st.currentType st.currentBlock
  else st.htmlLines

/-- The full core transformation: rendered fragments joined by newline,
exactly the string written by `main`. -/
def render (lines : List Str) : Str := joinSep (str "\n") (blocksOf lines)

/-- The abstract classifier state of the spec state machine: `NONE` iff no
block is open (the accumulator is empty), otherwise the open block's kind. -/
def classifierState (st : ScanState) : Option BType :=
  if st.currentBlock = [] then none else st.currentType

/-- A paragraph-classified input line: non-empty, not a heading line, not a
list item, and free of trailing whitespace (lines are newline-stripped). -/
def PLine (l : Str) : Prop :=
  l ≠ [] ∧ l.head? ≠ some '#' ∧ (str "- ").isPrefixOf l = false ∧
    (str "* ").isPrefixOf l = false ∧ pyRstrip l = l

/-- Every fragment the scanner emits is a heading, or the rendering of a
non-empty accumulated block; paragraph blocks moreover hold only non-empty
lines. -/
def GoodFrag (f : Str) : Prop :=
  (∃ l, f = convert_heading l) ∨
  (∃ b, b ≠ [] ∧ f = convert_unordered_list b) ∨
  (∃ b, b ≠ [] ∧ f = convert_ordered_list b) ∨
  (∃ b, b ≠ [] ∧ (∀ l ∈ b, l ≠ []) ∧ f = convert_paragraph b)

/-- `true` iff the two given characters occur adjacently, in order. -/
def hasPair (a b : Char) : Str → Bool
  | [] => false
  | x :: rest =>
    match rest with
    | [] => false
    | y :: _ => if x = a ∧ y = b then true else hasPair a b rest

/-! ## Helper lemmas: strings and stripping -/

theorem takeWhileNonspaceHashes (n : Nat) (text : Str) :
    (List.replicate n '#' ++ ' ' :: text).takeWhile (fun c => !(pyIsSpace c)) =
      List.replicate n '#' := by
  induction n with
  | zero => simp [List.takeWhile, pyIsSpace]
  | succ m ih => simp [List.replicate, List.takeWhile, pyIsSpace, ih]

theorem dropWhileHashes (n : Nat) (text : Str) :
    (List.replicate n '#' ++ ' ' :: text).dropWhile (fun c => c == '#') =
      ' ' :: text := by
  induction n with
  | zero => simp [List.dropWhile]
  | succ m ih => simp [List.replicate, List.dropWhile, ih]

theorem pyStripSpaceCons (text : Str) : pyStrip (' ' :: text) = pyStrip text := by
  simp [pyStrip, List.dropWhile, pyIsSpace]

/-- C1 (counterexample): the claim "level equals the count of leading `#`
characters" fails on `"#Hello"`: the leading-`#` count is 1, but the
renderer uses the length of the first whitespace-delimited token (6) and
emits `<h6>Hello</h6>`, not `<h1>Hello</h1>`. -/
theorem heading_level_counterexample :
    convert_heading (str "#Hello") = str "<h6>Hello</h6>" ∧
    ((str "#Hello").takeWhile (fun c => c == '#')).length = 1 ∧
    convert_heading (str "#Hello") ≠ str "<h1>Hello</h1>" := by
  refine ⟨by decide, by decide, by decide⟩

/-- C1 (amended): for a line of `N` `#` characters (`1 ≤ N`) followed by a
space and text, the output is exactly `<hN>{trimmed text}</hN>`; in general
the level is the length of the line's first whitespace-delimited token,
which coincides with the count of leading `#` exactly in this well-formed
case. -/
theorem heading_wellformed_output (n : Nat) (text : Str) (h : 1 ≤ n) :
    convert_heading (List.replicate n '#' ++ ' ' :: text) =
      str "<h" ++ natStr n ++ str ">" ++ pyStrip text ++
        str "</h" ++ natStr n ++ str ">" := by
  obtain ⟨m, rfl⟩ : ∃ m, n = m + 1 := ⟨n - 1, by omega⟩
  unfold convert_heading pySplitHead
  rw [show (List.replicate (m + 1) '#' ++ ' ' :: text).dropWhile pyIsSpace =
        List.replicate (m + 1) '#' ++ ' ' :: text by
      simp [List.replicate, List.dropWhile, pyIsSpace]]
  rw [takeWhileNonspaceHashes, dropWhileHashes, pyStripSpaceCons,
    List.length_replicate]

theorem heading_wellformed_output_witness :
    1 ≤ 2 ∧
    convert_heading (List.replicate 2 '#' ++ ' ' :: str "Title") =
      str "<h" ++ natStr 2 ++ str ">" ++ pyStrip (str "Title") ++
        str "</h" ++ natStr 2 ++ str ">" :=
  ⟨by decide, heading_wellformed_output 2 (str "Title") (by decide)⟩

/-! ## C2: list-item marker stripping -/

theorem containsDashSpace :
    (fun c => (str "- ").contains c) = (fun c => c == '-' || c == ' ') := by
  funext c
  cases h1 : c == '-' <;> cases h2 : c == ' ' <;>
    simp [str, List.contains, List.elem, h1, h2]

theorem containsStarSpace :
    (fun c => (str "* ").contains c) = (fun c => c == '*' || c == ' ') := by
  funext c
  cases h1 : c == '*' <;> cases h2 : c == ' ' <;>
    simp [str, List.contains, List.elem, h1, h2]

theorem pyLstripDash (l : Str) :
    pyLstrip (str "- ") l = l.dropWhile (fun c => c == '-' || c == ' ') := by
  unfold pyLstrip
  rw [containsDashSpace]

theorem pyLstripStar (l : Str) :
    pyLstrip (str "* ") l = l.dropWhile (fun c => c == '*' || c == ' ') := by
  unfold pyLstrip
  rw [containsStarSpace]

/-- C2 (counterexample): the renderer does not strip "exactly the
2-character marker prefix": `lstrip('- ')` / `lstrip('* ')` strip every
leading `'-'`/`' '` (resp. `'*'`/`' '`) character, so on the item
`"- - x"` the claimed output `<li>{process("- x")}</li>` is not produced
(the item text becomes `"x"`), and likewise for `"* * x"`. -/
theorem list_marker_strip_counterexample :
    convert_unordered_list [str "- - x"] = str "<ul>\n<li>x</li>\n</ul>" ∧
    convert_unordered_list [str "- - x"] ≠
      str "<ul>\n<li>" ++ process_inline_markup (str "- x") ++ str "</li>\n</ul>" ∧
    convert_ordered_list [str "* * x"] = str "<ol>\n<li>x</li>\n</ol>" ∧
    convert_ordered_list [str "* * x"] ≠
      str "<ol>\n<li>" ++ process_inline_markup (str "* x") ++ str "</li>\n</ol>" := by
  refine ⟨by decide, by decide, by decide, by decide⟩

/-- C2 (amended): each list line is stripped of *all* leading `'-'`/`' '`
(resp. `'*'`/`' '`) characters and of surrounding whitespace, the result is
inline-rewritten, wrapped in `<li>…</li>`, joined by newline and wrapped in
`<ul>…</ul>` / `<ol>…</ol>`; this agrees with stripping exactly the
2-character marker whenever the item text does not itself begin with a
marker character. -/
theorem list_marker_strip_amended :
    (∀ lines, convert_unordered_list lines =
      str "<ul>\n" ++
        joinSep (str "\n") (lines.map (fun l =>
          str "<li>" ++
            process_inline_markup
              (pyStrip (l.dropWhile (fun c => c == '-' || c == ' '))) ++
            str "</li>")) ++
        str "\n</ul>") ∧
    (∀ lines, convert_ordered_list lines =
      str "<ol>\n" ++
        joinSep (str "\n") (lines.map (fun l =>
          str "<li>" ++
            process_inline_markup
              (pyStrip (l.dropWhile (fun c => c == '*' || c == ' '))) ++
            str "</li>")) ++
        str "\n</ol>") ∧
    (∀ rest : Str, rest.head? ≠ some '-' → rest.head? ≠ some ' ' →
      pyStrip (pyLstrip (str "- ") ('-' :: ' ' :: rest)) = pyStrip rest) ∧
    (∀ rest : Str, rest.head? ≠ some '*' → rest.head? ≠ some ' ' →
      pyStrip (pyLstrip (str "* ") ('*' :: ' ' :: rest)) = pyStrip rest) := by
  refine ⟨?_, ?_, ?_, ?_⟩
  · intro lines
    simp only [convert_unordered_list, pyLstripDash, List.map_map, Function.comp_def]
  · intro lines
    simp only [convert_ordered_list, pyLstripStar, List.map_map, Function.comp_def]
  · intro rest h1 h2
    rw [pyLstripDash]
    cases rest with
    | nil => decide
    | cons y ys =>
      have hy1 : y ≠ '-' := by simpa using h1
      have hy2 : y ≠ ' ' := by simpa using h2
      simp [List.dropWhile_cons, hy1, hy2]
  · intro rest h1 h2
    rw [pyLstripStar]
    cases rest with
    | nil => decide
    | cons y ys =>
      have hy1 : y ≠ '*' := by simpa using h1
      have hy2 : y ≠ ' ' := by simpa using h2
      simp [List.dropWhile_cons, hy1, hy2]

theorem list_marker_strip_amended_witness :
    (str "item").head? ≠ some '-' ∧ (str "item").head? ≠ some ' ' ∧
    pyStrip (pyLstrip (str "- ") ('-' :: ' ' :: str "item")) = pyStrip (str "item") :=
  ⟨by decide, by decide,
    list_marker_strip_amended.2.2.1 (str "item") (by decide) (by decide)⟩

/-! ## Paragraph runs through the scanner -/

instance (l : Str) : Decidable (PLine l) := by
  unfold PLine
  infer_instance

theorem stepPLineEmpty (h : List Str) (t : Option BType) (l : Str)
    (hl : PLine l) : processLine ⟨h, [], t⟩ l = ⟨h, [l], some BType.par⟩ := by
  obtain ⟨h0, h1, h2, h3, h4⟩ := hl
  simp [processLine, h4, h1, h2, h3, h0]

theorem foldParAppend (p : List Str) (hp : ∀ l ∈ p, PLine l)
    (h : List Str) (b : List Str) :
    p.foldl processLine ⟨h, b, some BType.par⟩ = ⟨h, b ++ p, some BType.par⟩ := by
  induction p generalizing b with
  | nil => simp
  | cons l p' ih =>
    obtain ⟨h0, h1, h2, h3, h4⟩ := hp l (List.mem_cons_self l p')
    rw [List.foldl_cons]
    have hstep : processLine ⟨h, b, some BType.par⟩ l =
        ⟨h, b ++ [l], some BType.par⟩ := by
      simp [processLine, h4, h1, h2, h3, h0]
    rw [hstep, ih (fun x hx => hp x (List.mem_cons_of_mem l hx))]
    simp

theorem scanPLines (p : List Str) (hne : p ≠ []) (hp : ∀ l ∈ p, PLine l)
    (h : List Str) (t : Option BType) :
    p.foldl processLine ⟨h, [], t⟩ = ⟨h, p, some BType.par⟩ := by
  cases p with
  | nil => exact absurd rfl hne
  | cons l p' =>
    rw [List.foldl_cons, stepPLineEmpty h t l (hp l (List.mem_cons_self l p'))]
    rw [foldParAppend p' (fun x hx => hp x (List.mem_cons_of_mem l hx)) h [l]]
    simp

theorem paragraphBodyGetD (lines : List Str) (i : Nat) (h : i < lines.length) :
    (paragraphBody lines).getD i [] =
      process_inline_markup (lines.getD i []) ++
        (if i + 1 < lines.length ∧ lines.getD (i + 1) [] ≠ [] then
          str "<br/>" else []) := by
  have e : (i < lines.length - 1 ∧ lines[i + 1]?.getD [] ≠ []) ↔
      (i + 1 < lines.length ∧ lines[i + 1]?.getD [] ≠ []) :=
    and_congr_left' (by omega)
  simp only [paragraphBody, List.getD_eq_getElem?_getD, List.getElem?_map,
    List.getElem?_range h, Option.map_some', Option.getD_some]
  rw [if_congr e rfl rfl]
  split <;> simp [List.getD_eq_getElem?_getD]

/-- C3: the paragraph renderer emits one `<p>` block whose body lines are the
inline-rewritten input lines joined by newline; `<br/>` is appended to
rendered line `i` iff `i` is not the last index and the raw line `i + 1` is
non-empty; and a run of paragraph-classified lines is rendered by the
scanner as exactly one such block. -/
theorem paragraph_render_spec :
    (∀ lines, convert_paragraph lines =
      str "<p>\n" ++ joinSep (str "\n") (paragraphBody lines) ++ str "\n</p>") ∧
    (∀ lines, (paragraphBody lines).length = lines.length) ∧
    (∀ lines (i : Nat), i < lines.length →
      (paragraphBody lines).getD i [] =
        process_inline_markup (lines.getD i []) ++
          (if i + 1 < lines.length ∧ lines.getD (i + 1) [] ≠ [] then
            str "<br/>" else [])) ∧
    (∀ p, p ≠ [] → (∀ l ∈ p, PLine l) → blocksOf p = [convert_paragraph p]) := by
  refine ⟨fun lines => rfl, fun lines => by simp [paragraphBody],
    fun lines i h => paragraphBodyGetD lines i h, ?_⟩
  · intro p hne hp
    unfold blocksOf scanDoc
    rw [scanPLines p hne hp [] none]
    simp [emit, hne]

theorem paragraph_render_spec_witness :
    (0 < ([str "ab", str "cd"] : List Str).length ∧
      (paragraphBody [str "ab", str "cd"]).getD 0 [] =
        process_inline_markup (([str "ab", str "cd"] : List Str).getD 0 []) ++
          (if 0 + 1 < ([str "ab", str "cd"] : List Str).length ∧
              ([str "ab", str "cd"] : List Str).getD (0 + 1) [] ≠ [] then
            str "<br/>" else [])) ∧
    (([str "hello"] : List Str) ≠ [] ∧
      blocksOf [str "hello"] = [convert_paragraph [str "hello"]]) :=
  ⟨⟨by decide, paragraph_render_spec.2.2.1 [str "ab", str "cd"] 0 (by decide)⟩,
   ⟨by decide, paragraph_render_spec.2.2.2 [str "hello"] (by decide) (by decide)⟩⟩

/-! ## Blank-line steps -/

theorem blankStepFlush (st : ScanState) (raw : Str) (hraw : pyRstrip raw = [])
    (hb : st.currentBlock ≠ []) :
    processLine st raw =
      ⟨st.htmlLines ++ emit st.currentType st.currentBlock, [], none⟩ := by
  have e1 : (str "- ").isPrefixOf ([] : Str) = false := by decide
  have e2 : (str "* ").isPrefixOf ([] : Str) = false := by decide
  simp [processLine, hraw, e1, e2, hb]

theorem blankStepKeep (st : ScanState) (raw : Str) (hraw : pyRstrip raw = [])
    (hb : st.currentBlock = []) : processLine st raw = st := by
  have e1 : (str "- ").isPrefixOf ([] : Str) = false := by decide
  have e2 : (str "* ").isPrefixOf ([] : Str) = false := by decide
  simp [processLine, hraw, e1, e2, hb]

/-- C7: a blank line (empty after trailing-whitespace stripping) flushes the
open block if one exists and leaves the classifier state (`NONE` iff no
block is open) at `NONE`; consequently a single blank line between two runs
of paragraph lines yields two separate `<p>` blocks, never one. -/
theorem blank_line_separates_blocks :
    (∀ (st : ScanState) (raw : Str), pyRstrip raw = [] → st.currentBlock ≠ [] →
      processLine st raw =
        ⟨st.htmlLines ++ emit st.currentType st.currentBlock, [], none⟩) ∧
    (∀ (st : ScanState) (raw : Str), pyRstrip raw = [] →
      classifierState (processLine st raw) = none) ∧
    (∀ p1 p2 : List Str, p1 ≠ [] → p2 ≠ [] →
      (∀ l ∈ p1, PLine l) → (∀ l ∈ p2, PLine l) →
      blocksOf (p1 ++ [[]] ++ p2) =
        [convert_paragraph p1, convert_paragraph p2]) := by
  refine ⟨blankStepFlush, ?_, ?_⟩
  · intro st raw hraw
    by_cases hb : st.currentBlock = []
    · rw [blankStepKeep st raw hraw hb]
      simp [classifierState, hb]
    · rw [blankStepFlush st raw hraw hb]
      simp [classifierState]
  · intro p1 p2 h1 h2 hp1 hp2
    unfold blocksOf scanDoc
    rw [List.foldl_append, List.foldl_append, scanPLines p1 h1 hp1 [] none]
    have hblank : List.foldl processLine ⟨[], p1, some BType.par⟩ [([] : Str)] =
        ⟨[convert_paragraph p1], [], none⟩ := by
      rw [List.foldl_cons, blankStepFlush ⟨[], p1, some BType.par⟩ [] rfl h1]
      simp [emit]
    rw [hblank, scanPLines p2 h2 hp2 [convert_paragraph p1] none]
    simp [emit, h2]

theorem blank_line_separates_blocks_witness :
    (pyRstrip ([] : Str) = [] ∧
      (⟨[], [str "x"], some BType.par⟩ : ScanState).currentBlock ≠ [] ∧
      processLine ⟨[], [str "x"], some BType.par⟩ [] =
        ⟨[] ++ emit (some BType.par) [str "x"], [], none⟩) ∧
    (([str "aa"] : List Str) ≠ [] ∧ ([str "bb"] : List Str) ≠ [] ∧
      blocksOf ([str "aa"] ++ [[]] ++ [str "bb"]) =
        [convert_paragraph [str "aa"], convert_paragraph [str "bb"]]) :=
  ⟨⟨rfl, by decide,
    blank_line_separates_blocks.1 ⟨[], [str "x"], some BType.par⟩ [] rfl (by decide)⟩,
   ⟨by decide, by decide,
    blank_line_separates_blocks.2.2 [str "aa"] [str "bb"] (by decide) (by decide)
      (by decide) (by decide)⟩⟩

/-! ## Scanner invariant: emitted fragments come from headings or
non-empty accumulated blocks -/

/-- The loop invariant of `main`: every fragment already emitted is good,
and every accumulated line is non-empty. -/
def StInv (st : ScanState) : Prop :=
  (∀ f ∈ st.htmlLines, GoodFrag f) ∧ (∀ l ∈ st.currentBlock, l ≠ [])

theorem goodAppend (A B : List Str) (ha : ∀ f ∈ A, GoodFrag f)
    (hb : ∀ f ∈ B, GoodFrag f) : ∀ f ∈ A ++ B, GoodFrag f := by
  intro f hf
  rcases List.mem_append.mp hf with h | h
  · exact ha f h
  · exact hb f h

theorem emitGood (t : Option BType) (b : List Str) (hb : b ≠ [])
    (hlines : ∀ l ∈ b, l ≠ []) : ∀ f ∈ emit t b, GoodFrag f := by
  intro f hf
  cases t with
  | none => simp [emit] at hf
  | some bt =>
    cases bt with
    | ul =>
      simp [emit] at hf
      exact Or.inr (Or.inl ⟨b, hb, hf⟩)
    | ol =>
      simp [emit] at hf
      exact Or.inr (Or.inr (Or.inl ⟨b, hb, hf⟩))
    | par =>
      simp [emit] at hf
      exact Or.inr (Or.inr (Or.inr ⟨b, hb, hlines, hf⟩))

theorem stepInv (st : ScanState) (raw : Str) (h : StInv st) :
    StInv (processLine st raw) := by
  obtain ⟨hfr, hbl⟩ := h
  have hd : ∀ l : Str, (str "- ").isPrefixOf l = true → l ≠ [] := by
    intro l hp he
    subst he
    exact absurd hp (by decide)
  have hs : ∀ l : Str, (str "* ").isPrefixOf l = true → l ≠ [] := by
    intro l hp he
    subst he
    exact absurd hp (by decide)
  unfold StInv
  simp only [processLine]
  split
  next hline =>
    refine ⟨?_, by simp⟩
    apply goodAppend
    · split
      next hb => exact goodAppend _ _ hfr (emitGood _ _ hb hbl)
      next hb => exact hfr
    · intro f hf
      rw [List.mem_singleton.mp hf]
      exact Or.inl ⟨_, rfl⟩
  next hline =>
    split
    next hdash =>
      split
      next hcond =>
        refine ⟨goodAppend _ _ hfr (emitGood _ _ hcond.2 hbl), ?_⟩
        intro l hl
        rw [List.mem_singleton.mp hl]
        exact hd _ hdash
      next hcond =>
        refine ⟨hfr, ?_⟩
        intro l hl
        rcases List.mem_append.mp hl with h | h
        · exact hbl l h
        · rw [List.mem_singleton.mp h]
          exact hd _ hdash
    next hdash =>
      split
      next hstar =>
        split
        next hcond =>
          refine ⟨goodAppend _ _ hfr (emitGood _ _ hcond.2 hbl), ?_⟩
          intro l hl
          rw [List.mem_singleton.mp hl]
          exact hs _ hstar
        next hcond =>
          refine ⟨hfr, ?_⟩
          intro l hl
          rcases List.mem_append.mp hl with h | h
          · exact hbl l h
          · rw [List.mem_singleton.mp h]
            exact hs _ hstar
      next hstar =>
        split
        next hne =>
          split
          next hcond =>
            refine ⟨goodAppend _ _ hfr (emitGood _ _ hcond.2 hbl), ?_⟩
            intro l hl
            rw [List.mem_singleton.mp hl]
            exact hne
          next hcond =>
            refine ⟨hfr, ?_⟩
            intro l hl
            rcases List.mem_append.mp hl with h | h
            · exact hbl l h
            · rw [List.mem_singleton.mp h]
              exact hne
        next hne =>
          split
          next hb => exact ⟨goodAppend _ _ hfr (emitGood _ _ hb hbl), by simp⟩
          next hb => exact ⟨hfr, hbl⟩

theorem scanInv (lines : List Str) : StInv (scanDoc lines) := by
  unfold scanDoc
  have main : ∀ st : ScanState, StInv st →
      StInv (lines.foldl processLine st) := by
    induction lines with
    | nil => exact fun st h => h
    | cons l ls ih => exact fun st h => ih _ (stepInv st l h)
  exact main ⟨[], [], none⟩ ⟨by simp, by simp⟩

theorem blocksGood (lines : List Str) : ∀ f ∈ blocksOf lines, GoodFrag f := by
  obtain ⟨hfr, hbl⟩ := scanInv lines
  intro f hf
  simp only [blocksOf] at hf
  by_cases hb : (scanDoc lines).currentBlock = []
  · rw [if_neg (by simp [hb])] at hf
    exact hfr f hf
  · rw [if_pos hb] at hf
    exact goodAppend _ _ hfr (emitGood _ _ hb hbl) f hf

/-! ## Wrapper discriminators -/

theorem headingChar1 (l : Str) : (convert_heading l).getD 1 '?' = 'h' := by
  simp only [convert_heading, List.append_assoc]
  rfl

theorem ulChar1 (b : List Str) : (convert_unordered_list b).getD 1 '?' = 'u' := by
  simp only [convert_unordered_list, List.append_assoc]
  rfl

theorem olChar1 (b : List Str) : (convert_ordered_list b).getD 1 '?' = 'o' := by
  simp only [convert_ordered_list, List.append_assoc]
  rfl

theorem parChar1 (b : List Str) : (convert_paragraph b).getD 1 '?' = 'p' := by
  simp only [convert_paragraph, List.append_assoc]
  rfl

theorem joinSepCons (sep : Str) (a : Str) (r : List Str) :
    ∃ t, joinSep sep (a :: r) = a ++ t := by
  cases r with
  | nil => exact ⟨[], by simp [joinSep]⟩
  | cons y ys => exact ⟨sep ++ joinSep sep (y :: ys), by simp [joinSep, List.append_assoc]⟩

theorem ulChar5 (x : Str) (xs : List Str) :
    (convert_unordered_list (x :: xs)).getD 5 '?' = '<' := by
  simp only [convert_unordered_list, List.map_cons]
  obtain ⟨t, ht⟩ := joinSepCons (str "\n")
    (str "<li>" ++ process_inline_markup (pyStrip (pyLstrip (str "- ") x)) ++
      str "</li>")
    (List.map (fun it => str "<li>" ++ process_inline_markup it ++ str "</li>")
      (List.map (fun l => pyStrip (pyLstrip (str "- ") l)) xs))
  rw [ht]
  simp only [List.append_assoc]
  rfl

theorem olChar5 (x : Str) (xs : List Str) :
    (convert_ordered_list (x :: xs)).getD 5 '?' = '<' := by
  simp only [convert_ordered_list, List.map_cons]
  obtain ⟨t, ht⟩ := joinSepCons (str "\n")
    (str "<li>" ++ process_inline_markup (pyStrip (pyLstrip (str "* ") x)) ++
      str "</li>")
    (List.map (fun it => str "<li>" ++ process_inline_markup it ++ str "</li>")
      (List.map (fun l => pyStrip (pyLstrip (str "* ") l)) xs))
  rw [ht]
  simp only [List.append_assoc]
  rfl

theorem ulNeqEmptyWrap (b : List Str) (hb : b ≠ []) :
    convert_unordered_list b ≠ str "<ul>\n\n</ul>" := by
  obtain ⟨x, xs, rfl⟩ := List.exists_cons_of_ne_nil hb
  intro h
  have h5 := ulChar5 x xs
  rw [h] at h5
  exact absurd h5 (by decide)

theorem olNeqEmptyWrap (b : List Str) (hb : b ≠ []) :
    convert_ordered_list b ≠ str "<ol>\n\n</ol>" := by
  obtain ⟨x, xs, rfl⟩ := List.exists_cons_of_ne_nil hb
  intro h
  have h5 := olChar5 x xs
  rw [h] at h5
  exact absurd h5 (by decide)

theorem fragNeq (f : Str) (hf : GoodFrag f) :
    f ≠ str "<ul>\n\n</ul>" ∧ f ≠ str "<ol>\n\n</ol>" := by
  rcases hf with ⟨l, rfl⟩ | ⟨b, hb, rfl⟩ | ⟨b, hb, rfl⟩ | ⟨b, hb, hnn, rfl⟩
  · constructor <;> intro h <;>
      (have h1 := headingChar1 l; rw [h] at h1; exact absurd h1 (by decide))
  · refine ⟨ulNeqEmptyWrap b hb, ?_⟩
    intro h
    have h1 := ulChar1 b
    rw [h] at h1
    exact absurd h1 (by decide)
  · refine ⟨?_, olNeqEmptyWrap b hb⟩
    intro h
    have h1 := olChar1 b
    rw [h] at h1
    exact absurd h1 (by decide)
  · constructor <;> intro h <;>
      (have h1 := parChar1 b; rw [h] at h1; exact absurd h1 (by decide))

/-- C9 (counterexample): the output *can* contain an empty `<p>` wrapper
even though every flush is guarded by a non-empty accumulator: on the input
line `"(())"` the inline rewriter erases the whole line, and the scanner
output is exactly the fragment `<p>\n\n</p>`. -/
theorem empty_paragraph_wrapper_counterexample :
    blocksOf [str "(())"] = [str "<p>\n\n</p>"] ∧
    str "<p>\n\n</p>" ∈ blocksOf [str "(())"] :=
  ⟨by decide, by decide⟩

/-- C9 (amended): every emitted fragment is a heading or the rendering of a
non-empty accumulated block (paragraph blocks of non-empty lines), so the
stale `current_type` never produces a spurious block, and no empty
`<ul>`/`<ol>` wrapper ever appears; an empty-bodied `<p>` wrapper can still
arise from a non-empty block whose text the inline rewriter erases. -/
theorem fragments_from_nonempty_blocks :
    ∀ lines f, f ∈ blocksOf lines →
      GoodFrag f ∧ f ≠ str "<ul>\n\n</ul>" ∧ f ≠ str "<ol>\n\n</ol>" := by
  intro lines f hf
  have hg := blocksGood lines f hf
  exact ⟨hg, fragNeq f hg⟩

theorem fragments_from_nonempty_blocks_witness :
    GoodFrag (str "<ul>\n<li>item</li>\n</ul>") ∧
    str "<ul>\n<li>item</li>\n</ul>" ≠ str "<ul>\n\n</ul>" ∧
    str "<ul>\n<li>item</li>\n</ul>" ≠ str "<ol>\n\n</ol>" :=
  fragments_from_nonempty_blocks [str "- item"] (str "<ul>\n<li>item</li>\n</ul>")
    (by decide)

/-- C10: every line accumulated into a (rendered) paragraph block is
non-empty, and for a block of non-empty lines the renderer's
next-raw-line-non-empty test always succeeds: `<br/>` is appended after
exactly the non-final lines. -/
theorem paragraph_nonempty_br :
    (∀ lines f, f ∈ blocksOf lines → GoodFrag f) ∧
    (∀ b : List Str, (∀ l ∈ b, l ≠ []) → ∀ i, i < b.length →
      (paragraphBody b).getD i [] =
        process_inline_markup (b.getD i []) ++
          (if i + 1 < b.length then str "<br/>" else [])) := by
  refine ⟨blocksGood, ?_⟩
  intro b hnn i hi
  rw [paragraphBodyGetD b i hi]
  by_cases h2 : i + 1 < b.length
  · have hmem : b.getD (i + 1) [] ∈ b := by
      rw [List.getD_eq_getElem b [] h2]
      exact List.getElem_mem h2
    rw [if_pos ⟨h2, hnn _ hmem⟩, if_pos h2]
  · rw [if_neg (fun hc => h2 hc.1), if_neg h2]

theorem paragraph_nonempty_br_witness :
    GoodFrag (str "<p>\nhi\n</p>") ∧
    ((∀ l ∈ ([str "aa", str "bb"] : List Str), l ≠ []) ∧
      (paragraphBody [str "aa", str "bb"]).getD 0 [] =
        process_inline_markup (([str "aa", str "bb"] : List Str).getD 0 []) ++
          (if 0 + 1 < ([str "aa", str "bb"] : List Str).length then
            str "<br/>" else [])) :=
  ⟨paragraph_nonempty_br.1 [str "hi"] (str "<p>\nhi\n</p>") (by decide),
   ⟨by decide, paragraph_nonempty_br.2 [str "aa", str "bb"] (by decide) 0
      (by decide)⟩⟩

/-- C8: empty input produces empty output, and for every input the output is
exactly the rendered fragments of the closed blocks, in source order, joined
by a single newline with nothing appended beyond the join — as on the spec's
end-to-end example. -/
theorem output_join_spec :
    render [] = [] ∧
    (∀ lines, render lines = joinSep (str "\n") (blocksOf lines)) ∧
    render [str "# Title", str "**bold** and __em__", str "- one",
        str "- two"] =
      str "<h1>Title</h1>\n<p>\n<b>bold</b> and <em>em</em>\n</p>\n<ul>\n<li>one</li>\n<li>two</li>\n</ul>" := by
  refine ⟨rfl, fun lines => rfl, by decide⟩

/-! ## Facts about the lazy close scan -/

theorem scanC_cons (c x : Char) (rest : Str) :
    scanC c (x :: rest) =
      if x = c ∧ rest.head? = some c then some ([], rest.tail)
      else if x = '\n' then none
      else (scanC c rest).map (fun p => (x :: p.1, p.2)) := rfl

theorem scanC_length (c : Char) (s : Str) :
    ∀ cont r, scanC c s = some (cont, r) →
      cont.length + 2 + r.length = s.length := by
  induction s with
  | nil => intro cont r h; simp [scanC] at h
  | cons x rest ih =>
    intro cont r h
    rw [scanC_cons] at h
    split at h
    · next hc =>
      obtain ⟨y, rest', rfl⟩ : ∃ y rest', rest = y :: rest' := by
        cases rest with
        | nil => simp at hc
        | cons y rest' => exact ⟨y, rest', rfl⟩
      simp only [Option.some.injEq, Prod.mk.injEq] at h
      obtain ⟨rfl, rfl⟩ := h
      simp only [List.length_nil, List.tail_cons, List.length_cons]
      omega
    · split at h
      · simp at h
      · rcases Option.map_eq_some'.mp h with ⟨⟨c1, r1⟩, hsc, heq⟩
        simp only [Prod.mk.injEq] at heq
        obtain ⟨rfl, rfl⟩ := heq
        have := ih c1 r1 hsc
        simp only [List.length_cons]
        omega

theorem scanC_app (c : Char) (cnt rest : Str)
    (h : ∀ x ∈ cnt, x ≠ c ∧ x ≠ '\n') :
    scanC c (cnt ++ c :: c :: rest) = some (cnt, rest) := by
  induction cnt with
  | nil =>
    rw [List.nil_append, scanC_cons, if_pos ⟨rfl, rfl⟩]
    rfl
  | cons x cnt' ih =>
    obtain ⟨hx1, hx2⟩ := h x (List.mem_cons_self x cnt')
    have hh : ¬(x = c ∧ (cnt' ++ c :: c :: rest).head? = some c) :=
      fun hc => hx1 hc.1
    rw [List.cons_append, scanC_cons, if_neg hh, if_neg hx2,
      ih (fun y hy => h y (List.mem_cons_of_mem x hy))]
    rfl

theorem hasPair_cons_false (a b x : Char) (rest : Str)
    (h : hasPair a b (x :: rest) = false) : hasPair a b rest = false := by
  cases rest with
  | nil => rfl
  | cons y t =>
    simp only [hasPair] at h
    split at h
    · exact absurd h (by simp)
    · exact h

theorem scanC_none_of_noPair (c : Char) (s : Str)
    (h : hasPair c c s = false) : scanC c s = none := by
  induction s with
  | nil => rfl
  | cons x rest ih =>
    rw [scanC_cons]
    have hcond : ¬(x = c ∧ rest.head? = some c) := by
      rintro ⟨rfl, hh⟩
      cases rest with
      | nil => simp at hh
      | cons y t =>
        simp only [List.head?_cons, Option.some.injEq] at hh
        simp [hasPair, hh] at h
    rw [if_neg hcond]
    split
    · rfl
    · rw [ih (hasPair_cons_false c c x rest h)]
      rfl

/-! ## Fuel irrelevance and step equations for the findall scanner -/

theorem goFind_nil (o c : Char) (fuel : Nat) : goFind o c fuel [] = [] := by
  cases fuel <;> rfl

theorem goFind_succ_cons (o c : Char) (fuel : Nat) (x : Char) (rest : Str) :
    goFind o c (fuel + 1) (x :: rest) =
      if x = o ∧ rest.head? = some o then
        match scanC c rest.tail with
        | some (cont, r) => cont :: goFind o c fuel r
        | none => goFind o c fuel rest
      else goFind o c fuel rest := rfl

theorem goFind_fuel (o c : Char) :
    ∀ f1 f2 (s : Str), s.length ≤ f1 → s.length ≤ f2 →
      goFind o c f1 s = goFind o c f2 s := by
  intro f1
  induction f1 with
  | zero =>
    intro f2 s h1 h2
    have hs : s = [] := List.eq_nil_of_length_eq_zero (by omega)
    subst hs
    rw [goFind_nil, goFind_nil]
  | succ k ih =>
    intro f2 s h1 h2
    cases s with
    | nil => rw [goFind_nil, goFind_nil]
    | cons x rest =>
      obtain ⟨m, rfl⟩ : ∃ m, f2 = m + 1 := by
        cases f2 with
        | zero => simp at h2
        | succ m => exact ⟨m, rfl⟩
      rw [goFind_succ_cons, goFind_succ_cons]
      simp only [List.length_cons] at h1 h2
      split
      · next hc =>
        cases hscan : scanC c rest.tail with
        | none =>
          exact ih m rest (by omega) (by omega)
        | some p =>
          obtain ⟨cont, r⟩ := p
          have hlen := scanC_length c rest.tail cont r hscan
          have htail : rest.tail.length ≤ rest.length := by
            cases rest <;> simp
          show cont :: goFind o c k r = cont :: goFind o c m r
          rw [ih m r (by omega) (by omega)]
      · exact ih m rest (by omega) (by omega)

theorem fd_skip (o c x : Char) (s : Str)
    (h : ¬(x = o ∧ s.head? = some o)) :
    findDelim o c (x :: s) = findDelim o c s := by
  unfold findDelim
  rw [List.length_cons, goFind_succ_cons, if_neg h]

theorem fd_match (o c : Char) (s2 cont r : Str)
    (h : scanC c s2 = some (cont, r)) :
    findDelim o c (o :: o :: s2) = cont :: findDelim o c r := by
  have hlen := scanC_length c s2 cont r h
  unfold findDelim
  rw [List.length_cons, List.length_cons, goFind_succ_cons, if_pos ⟨rfl, rfl⟩]
  simp only [List.tail_cons, h]
  rw [goFind_fuel o c (s2.length + 1) r.length r (by omega) (le_refl _)]

theorem fd_fail (o c : Char) (s2 : Str) (h : scanC c s2 = none) :
    findDelim o c (o :: o :: s2) = findDelim o c (o :: s2) := by
  unfold findDelim
  rw [List.length_cons, List.length_cons, goFind_succ_cons, if_pos ⟨rfl, rfl⟩]
  simp only [List.tail_cons, h]

theorem fd_no_open (o c : Char) (s : Str) (h : ∀ x ∈ s, x ≠ o) :
    findDelim o c s = [] := by
  induction s with
  | nil => rfl
  | cons x rest ih =>
    rw [fd_skip o c x rest (fun hc => h x (List.mem_cons_self x rest) hc.1)]
    exact ih (fun y hy => h y (List.mem_cons_of_mem x hy))

theorem findOne (o cl : Char) (pre cont post : Str) (hpre : ∀ x ∈ pre, x ≠ o)
    (hc : ∀ x ∈ cont, x ≠ cl ∧ x ≠ '\n') (hpost : ∀ x ∈ post, x ≠ o) :
    findDelim o cl (pre ++ o :: o :: (cont ++ cl :: cl :: post)) = [cont] := by
  induction pre with
  | nil =>
    rw [List.nil_append, fd_match o cl _ cont post (scanC_app cl cont post hc),
      fd_no_open o cl post hpost]
  | cons y pre' ih =>
    rw [List.cons_append,
      fd_skip o cl y _ (fun hcond => hpre y (List.mem_cons_self y pre') hcond.1),
      ih (fun x hx => hpre x (List.mem_cons_of_mem y hx))]

theorem fd_none_noPair (o c : Char) (s : Str) (h : hasPair c c s = false) :
    findDelim o c s = [] := by
  induction s with
  | nil => rfl
  | cons x rest ih =>
    by_cases hcond : x = o ∧ rest.head? = some o
    · obtain ⟨rfl, hh⟩ := hcond
      obtain ⟨rest2, rfl⟩ : ∃ rest2, rest = x :: rest2 := by
        cases rest with
        | nil => simp at hh
        | cons y t =>
          simp only [List.head?_cons, Option.some.injEq] at hh
          exact ⟨t, by rw [hh]⟩
      have hp2 : hasPair c c rest2 = false :=
        hasPair_cons_false c c x rest2 (hasPair_cons_false c c x (x :: rest2) h)
      rw [fd_fail x c rest2 (scanC_none_of_noPair c rest2 hp2)]
      exact ih (hasPair_cons_false c c x (x :: rest2) h)
    · rw [fd_skip o c x rest hcond]
      exact ih (hasPair_cons_false c c x rest h)

/-! ## Fuel irrelevance and step equations for replace -/

theorem goRepl_nil (pat repl : Str) (fuel : Nat) : goRepl pat repl fuel [] = [] := by
  cases fuel <;> rfl

theorem goRepl_succ_cons (pat repl : Str) (fuel : Nat) (x : Char) (rest : Str) :
    goRepl pat repl (fuel + 1) (x :: rest) =
      if pat ≠ [] ∧ pat.isPrefixOf (x :: rest) then
        repl ++ goRepl pat repl fuel (List.drop (pat.length - 1) rest)
      else x :: goRepl pat repl fuel rest := rfl

theorem goRepl_fuel (pat repl : Str) :
    ∀ f1 f2 (s : Str), s.length ≤ f1 → s.length ≤ f2 →
      goRepl pat repl f1 s = goRepl pat repl f2 s := by
  intro f1
  induction f1 with
  | zero =>
    intro f2 s h1 h2
    have hs : s = [] := List.eq_nil_of_length_eq_zero (by omega)
    subst hs
    rw [goRepl_nil, goRepl_nil]
  | succ k ih =>
    intro f2 s h1 h2
    cases s with
    | nil => rw [goRepl_nil, goRepl_nil]
    | cons x rest =>
      obtain ⟨m, rfl⟩ : ∃ m, f2 = m + 1 := by
        cases f2 with
        | zero => simp at h2
        | succ m => exact ⟨m, rfl⟩
      rw [goRepl_succ_cons, goRepl_succ_cons]
      simp only [List.length_cons] at h1 h2
      split
      · congr 1
        exact ih m _ (by simp [List.length_drop]; omega)
          (by simp [List.length_drop]; omega)
      · rw [ih m rest (by omega) (by omega)]

theorem ra_skip (p : Char) (ps repl : Str) (x : Char) (s : Str) (h : p ≠ x) :
    replaceAll (p :: ps) repl (x :: s) = x :: replaceAll (p :: ps) repl s := by
  unfold replaceAll
  rw [List.length_cons, goRepl_succ_cons, if_neg]
  rintro ⟨-, hpre⟩
  simp only [List.isPrefixOf, Bool.and_eq_true, beq_iff_eq] at hpre
  exact h hpre.1

theorem ra_at (p : Char) (ps repl rest : Str) :
    replaceAll (p :: ps) repl ((p :: ps) ++ rest) =
      repl ++ replaceAll (p :: ps) repl rest := by
  unfold replaceAll
  rw [List.cons_append, List.length_cons, goRepl_succ_cons, if_pos]
  · congr 1
    have hdrop : List.drop ((p :: ps).length - 1) (ps ++ rest) = rest := by
      simp only [List.length_cons, Nat.add_sub_cancel]
      exact List.drop_left ps rest
    rw [hdrop]
    exact goRepl_fuel (p :: ps) repl (ps ++ rest).length rest.length rest
      (by simp) (le_refl _)
  · refine ⟨by simp, ?_⟩
    rw [show p :: (ps ++ rest) = (p :: ps) ++ rest from rfl]
    exact List.isPrefixOf_iff_prefix.mpr (List.prefix_append (p :: ps) rest)

theorem ra_none (p : Char) (ps repl : Str) (s : Str) (h : p ∉ s) :
    replaceAll (p :: ps) repl s = s := by
  induction s with
  | nil => rfl
  | cons x rest ih =>
    have hx : p ≠ x := fun e => h (e ▸ List.mem_cons_self x rest)
    rw [ra_skip p ps repl x rest hx, ih (fun hm => h (List.mem_cons_of_mem x hm))]

theorem replOne (p : Char) (ps repl pre post : Str) (hpre : p ∉ pre)
    (hpost : p ∉ post) :
    replaceAll (p :: ps) repl (pre ++ ((p :: ps) ++ post)) =
      pre ++ (repl ++ post) := by
  induction pre with
  | nil => rw [List.nil_append, List.nil_append, ra_at, ra_none p ps repl post hpost]
  | cons y pre' ih =>
    have hy : p ≠ y := fun e => hpre (e ▸ List.mem_cons_self y pre')
    rw [List.cons_append,
      ra_skip p ps repl y _ hy, ih (fun hm => hpre (List.mem_cons_of_mem y hm))]
    rfl

/-! ## The hash and strip substitution passes -/

theorem md5PassOne (pre c post : Str) (hpre : '[' ∉ pre)
    (hc : ∀ x ∈ c, x ≠ ']' ∧ x ≠ '\n') (hpost : '[' ∉ post) :
    md5Pass (pre ++ str "[[" ++ c ++ str "]]" ++ post) =
      pre ++ md5hex c ++ post := by
  have e1 : str "[[" = ['[', '['] := rfl
  have e2 : str "]]" = [']', ']'] := rfl
  have hshape : pre ++ str "[[" ++ c ++ str "]]" ++ post =
      pre ++ '[' :: '[' :: (c ++ ']' :: ']' :: post) := by
    rw [e1, e2]
    simp [List.append_assoc]
  have hpre' : ∀ x ∈ pre, x ≠ '[' := fun x hx he => hpre (he ▸ hx)
  have hpost' : ∀ x ∈ post, x ≠ '[' := fun x hx he => hpost (he ▸ hx)
  unfold md5Pass
  rw [hshape, findOne '[' ']' pre c post hpre' hc hpost', List.foldl_cons,
    List.foldl_nil]
  have hpat : str "[[" ++ c ++ str "]]" = '[' :: ('[' :: (c ++ [']', ']'])) := by
    rw [e1, e2]
    simp [List.append_assoc]
  rw [hpat]
  have hargshape : pre ++ '[' :: '[' :: (c ++ ']' :: ']' :: post) =
      pre ++ ('[' :: ('[' :: (c ++ [']', ']'])) ++ post) := by
    simp [List.append_assoc]
  rw [hargshape,
    replOne '[' ('[' :: (c ++ [']', ']'])) (md5hex c) pre post hpre hpost]
  simp [List.append_assoc]

theorem parenPassOne (pre c post : Str) (hpre : '(' ∉ pre)
    (hc : ∀ x ∈ c, x ≠ ')' ∧ x ≠ '\n') (hpost : '(' ∉ post) :
    parenPass (pre ++ str "((" ++ c ++ str "))" ++ post) =
      pre ++ removeC c ++ post := by
  have e1 : str "((" = ['(', '('] := rfl
  have e2 : str "))" = [')', ')'] := rfl
  have hshape : pre ++ str "((" ++ c ++ str "))" ++ post =
      pre ++ '(' :: '(' :: (c ++ ')' :: ')' :: post) := by
    rw [e1, e2]
    simp [List.append_assoc]
  have hpre' : ∀ x ∈ pre, x ≠ '(' := fun x hx he => hpre (he ▸ hx)
  have hpost' : ∀ x ∈ post, x ≠ '(' := fun x hx he => hpost (he ▸ hx)
  unfold parenPass
  rw [hshape, findOne '(' ')' pre c post hpre' hc hpost', List.foldl_cons,
    List.foldl_nil]
  have hpat : str "((" ++ c ++ str "))" = '(' :: ('(' :: (c ++ [')', ')'])) := by
    rw [e1, e2]
    simp [List.append_assoc]
  rw [hpat]
  have hargshape : pre ++ '(' :: '(' :: (c ++ ')' :: ')' :: post) =
      pre ++ ('(' :: ('(' :: (c ++ [')', ')'])) ++ post) := by
    simp [List.append_assoc]
  rw [hargshape,
    replOne '(' ('(' :: (c ++ [')', ')'])) (removeC c) pre post hpre hpost]
  simp [List.append_assoc]

/-- C4: the hash pass rewrites a `[[content]]` span to the lowercase
hexadecimal MD5 digest of the UTF-8 bytes of the content, leaving the
surrounding text unchanged; in particular `process("[[Hello]]")` is the MD5
hex digest of the byte sequence `"Hello"`, which is the 32 lowercase hex
characters `8b1a9953c4611296a827abf8c47804d7`. -/
theorem md5_substitution_spec :
    (∀ pre c post : Str, '[' ∉ pre → (∀ x ∈ c, x ≠ ']' ∧ x ≠ '\n') →
      '[' ∉ post →
      md5Pass (pre ++ str "[[" ++ c ++ str "]]" ++ post) =
        pre ++ md5hex c ++ post) ∧
    process_inline_markup (str "[[Hello]]") = md5hex (str "Hello") ∧
    md5hex (str "Hello") = str "8b1a9953c4611296a827abf8c47804d7" ∧
    (md5hex (str "Hello")).length = 32 ∧
    (∀ ch ∈ md5hex (str "Hello"), ch ∈ str "0123456789abcdef") := by
  refine ⟨md5PassOne, by decide, by decide, by decide, by decide⟩

theorem md5_substitution_spec_witness :
    ('[' ∉ str "a" ∧ (∀ x ∈ str "Hi", x ≠ ']' ∧ x ≠ '\n') ∧ '[' ∉ str "b") ∧
    md5Pass (str "a" ++ str "[[" ++ str "Hi" ++ str "]]" ++ str "b") =
      str "a" ++ md5hex (str "Hi") ++ str "b" :=
  ⟨⟨by decide, by decide, by decide⟩,
   md5_substitution_spec.1 (str "a") (str "Hi") (str "b") (by decide)
     (by decide) (by decide)⟩

/-- C5: the strip pass rewrites a `((content))` span to the content with
every ASCII `c`/`C` removed and no other character altered, leaving the text
outside the span unchanged; in particular `process("((Coconut))") = "oonut"`
also with surrounding text intact. -/
theorem strip_substitution_spec :
    (∀ pre c post : Str, '(' ∉ pre → (∀ x ∈ c, x ≠ ')' ∧ x ≠ '\n') →
      '(' ∉ post →
      parenPass (pre ++ str "((" ++ c ++ str "))" ++ post) =
        pre ++ removeC c ++ post) ∧
    (∀ s : Str, removeC s = s.filter (fun ch => ch != 'c' && ch != 'C')) ∧
    removeC (str "Coconut") = str "oonut" ∧
    process_inline_markup (str "((Coconut))") = str "oonut" ∧
    process_inline_markup (str "x((Coconut))y") = str "xoonuty" := by
  refine ⟨parenPassOne, fun s => rfl, by decide, by decide, by decide⟩

theorem strip_substitution_spec_witness :
    ('(' ∉ str "u" ∧ (∀ x ∈ str "Cocoa", x ≠ ')' ∧ x ≠ '\n') ∧
      '(' ∉ str "v") ∧
    parenPass (str "u" ++ str "((" ++ str "Cocoa" ++ str "))" ++ str "v") =
      str "u" ++ removeC (str "Cocoa") ++ str "v" :=
  ⟨⟨by decide, by decide, by decide⟩,
   strip_substitution_spec.1 (str "u") (str "Cocoa") (str "v") (by decide)
     (by decide) (by decide)⟩

/-! ## Fuel irrelevance and step equations for the bold/emphasis pass -/

theorem goSub_nil (d : Char) (ot ct : Str) (fuel : Nat) :
    goSub d ot ct fuel [] = [] := by
  cases fuel <;> rfl

theorem goSub_succ_cons (d : Char) (ot ct : Str) (fuel : Nat) (x : Char)
    (rest : Str) :
    goSub d ot ct (fuel + 1) (x :: rest) =
      if x = d ∧ rest.head? = some d then
        match grabRun d rest.tail with
        | some (cont, r) => ot ++ cont ++ ct ++ goSub d ot ct fuel r
        | none => x :: goSub d ot ct fuel rest
      else x :: goSub d ot ct fuel rest := rfl

theorem grabRun_length (d : Char) (s cont r : Str)
    (h : grabRun d s = some (cont, r)) :
    r.length + 2 + cont.length = s.length := by
  simp only [grabRun] at h
  split at h
  · simp at h
  · next hne =>
    split at h
    · next a b r' hdrop =>
      split at h
      · simp only [Option.some.injEq, Prod.mk.injEq] at h
        obtain ⟨rfl, rfl⟩ := h
        have hlen := congrArg List.length hdrop
        simp only [List.length_drop, List.length_cons] at hlen
        have htw : (s.takeWhile (fun c => c != d)).length ≤ s.length :=
          (List.takeWhile_prefix _).length_le
        omega
      · simp at h
    · simp at h

theorem goSub_fuel (d : Char) (ot ct : Str) :
    ∀ f1 f2 (s : Str), s.length ≤ f1 → s.length ≤ f2 →
      goSub d ot ct f1 s = goSub d ot ct f2 s := by
  intro f1
  induction f1 with
  | zero =>
    intro f2 s h1 h2
    have hs : s = [] := List.eq_nil_of_length_eq_zero (by omega)
    subst hs
    rw [goSub_nil, goSub_nil]
  | succ k ih =>
    intro f2 s h1 h2
    cases s with
    | nil => rw [goSub_nil, goSub_nil]
    | cons x rest =>
      obtain ⟨m, rfl⟩ : ∃ m, f2 = m + 1 := by
        cases f2 with
        | zero => simp at h2
        | succ m => exact ⟨m, rfl⟩
      rw [goSub_succ_cons, goSub_succ_cons]
      simp only [List.length_cons] at h1 h2
      split
      · cases hgrab : grabRun d rest.tail with
        | none =>
          show x :: goSub d ot ct k rest = x :: goSub d ot ct m rest
          rw [ih m rest (by omega) (by omega)]
        | some p =>
          obtain ⟨cont, r⟩ := p
          have hlen := grabRun_length d rest.tail cont r hgrab
          have htail : rest.tail.length ≤ rest.length := by
            cases rest <;> simp
          show ot ++ cont ++ ct ++ goSub d ot ct k r =
            ot ++ cont ++ ct ++ goSub d ot ct m r
          rw [ih m r (by omega) (by omega)]
      · show x :: goSub d ot ct k rest = x :: goSub d ot ct m rest
        rw [ih m rest (by omega) (by omega)]

theorem sub_skip (d : Char) (ot ct : Str) (x : Char) (s : Str)
    (h : ¬(x = d ∧ s.head? = some d)) :
    subDelim d ot ct (x :: s) = x :: subDelim d ot ct s := by
  unfold subDelim
  rw [List.length_cons, goSub_succ_cons, if_neg h]

theorem sub_fail (d : Char) (ot ct : Str) (s2 : Str) (h : grabRun d s2 = none) :
    subDelim d ot ct (d :: d :: s2) = d :: subDelim d ot ct (d :: s2) := by
  unfold subDelim
  rw [List.length_cons, List.length_cons, goSub_succ_cons, if_pos ⟨rfl, rfl⟩]
  simp only [List.tail_cons, h]

theorem sub_copy (d : Char) (ot ct : Str) (s : Str) (h : ∀ x ∈ s, x ≠ d) :
    subDelim d ot ct s = s := by
  induction s with
  | nil => rfl
  | cons x rest ih =>
    rw [sub_skip d ot ct x rest (fun hc => h x (List.mem_cons_self x rest) hc.1),
      ih (fun y hy => h y (List.mem_cons_of_mem x hy))]

theorem takeWhile_all {p : Char → Bool} (l : Str) (h : ∀ x ∈ l, p x = true) :
    l.takeWhile p = l := by
  induction l with
  | nil => rfl
  | cons x rest ih =>
    rw [List.takeWhile_cons, if_pos (h x (List.mem_cons_self x rest)),
      ih (fun y hy => h y (List.mem_cons_of_mem x hy))]

theorem grabRun_none_of_free (d : Char) (s : Str) (h : ∀ x ∈ s, x ≠ d) :
    grabRun d s = none := by
  cases s with
  | nil => rfl
  | cons a s' =>
    have htake : (a :: s').takeWhile (fun c => c != d) = a :: s' :=
      takeWhile_all (a :: s') (fun x hx => by simpa using h x hx)
    simp [grabRun, htake, List.drop_length]

theorem subUnterminated (d : Char) (ot ct : Str) (a b : Str)
    (ha : ∀ x ∈ a, x ≠ d) (hb : ∀ x ∈ b, x ≠ d) :
    subDelim d ot ct (a ++ d :: d :: b) = a ++ d :: d :: b := by
  induction a with
  | nil =>
    rw [List.nil_append, sub_fail d ot ct b (grabRun_none_of_free d b hb)]
    congr 1
    cases b with
    | nil =>
      rw [sub_skip d ot ct d [] (by simp)]
      rfl
    | cons y ys =>
      have hy : y ≠ d := hb y (List.mem_cons_self y ys)
      rw [sub_skip d ot ct d (y :: ys) (fun hc => hy (by simpa using hc.2)),
        sub_copy d ot ct (y :: ys) hb]
  | cons z a' ih =>
    have hz : z ≠ d := ha z (List.mem_cons_self z a')
    rw [List.cons_append, sub_skip d ot ct z _ (fun hc => hz hc.1),
      ih (fun y hy => ha y (List.mem_cons_of_mem z hy))]

theorem md5PassNoClose (t : Str) (h : hasPair ']' ']' t = false) :
    md5Pass t = t := by
  unfold md5Pass
  rw [fd_none_noPair '[' ']' t h]
  rfl

theorem parenPassNoClose (t : Str) (h : hasPair ')' ')' t = false) :
    parenPass t = t := by
  unfold parenPass
  rw [fd_none_noPair '(' ')' t h]
  rfl

/-- C6: the inline rewriter is total on every line and treats unbalanced
markup as no-match: a lone `**` (no second `**`) is left as-is by the bold
pass, a lone `__` by the emphasis pass, a text with no `]]` is untouched by
the hash pass, one with no `))` by the strip pass; a line combining all four
malformed delimiters passes through the full rewriter unchanged. -/
theorem malformed_markup_noop :
    (∀ a b : Str, (∀ x ∈ a, x ≠ '*') → (∀ x ∈ b, x ≠ '*') →
      boldSub (a ++ '*' :: '*' :: b) = a ++ '*' :: '*' :: b) ∧
    (∀ a b : Str, (∀ x ∈ a, x ≠ '_') → (∀ x ∈ b, x ≠ '_') →
      emSub (a ++ '_' :: '_' :: b) = a ++ '_' :: '_' :: b) ∧
    (∀ t : Str, hasPair ']' ']' t = false → md5Pass t = t) ∧
    (∀ t : Str, hasPair ')' ')' t = false → parenPass t = t) ∧
    process_inline_markup (str "**unclosed [[x and ((y and __z") =
      str "**unclosed [[x and ((y and __z" := by
  refine ⟨fun a b ha hb => subUnterminated '*' (str "<b>") (str "</b>") a b ha hb,
    fun a b ha hb => subUnterminated '_' (str "<em>") (str "</em>") a b ha hb,
    md5PassNoClose, parenPassNoClose, by decide⟩

theorem malformed_markup_noop_witness :
    ((∀ x ∈ str "ab", x ≠ '*') ∧ (∀ x ∈ str "cd", x ≠ '*') ∧
      boldSub (str "ab" ++ '*' :: '*' :: str "cd") =
        str "ab" ++ '*' :: '*' :: str "cd") ∧
    (hasPair ']' ']' (str "[[open") = false ∧
      md5Pass (str "[[open") = str "[[open") :=
  ⟨⟨by decide, by decide,
    malformed_markup_noop.1 (str "ab") (str "cd") (by decide) (by decide)⟩,
   ⟨by decide, malformed_markup_noop.2.2.1 (str "[[open") (by decide)⟩⟩
